import Mathlib

set_option autoImplicit false

/-!
Verification development for the BlueskyJSONLCatalog core
(`intake_bluesky/jsonl.py`).

A jsonl run file is modelled at the level of the Document Reader's output: a
list of parsed lines, each line being the pair `(name, doc)` produced by
`json.loads(line)` on a well-formed two-element record.  Document bodies are
modelled as association lists from field names to string values; `getField`
models Python's `doc[key]` subscript, returning `none` where Python would
raise `KeyError` (the data model requires those fields to be present in
well-formed documents, so the two agree on every well-formed file).
-/

namespace IntakeBluesky

/-- Document body: a JSON object flattened to field-name/value pairs. -/
abbrev Doc := List (String × String)

/-- One parsed jsonl line: `json.loads(line)` yields the pair `[name, doc]`. -/
abbrev Line := String × Doc

/-- Field access `doc[k]`; `none` models the missing-key (`KeyError`) case. -/
def getField (d : Doc) (k : String) : Option String :=
  (d.find? (fun p => p.1 == k)).map (fun p => p.2)

/-- Errors surfaced by the catalog core.  `malformedDocument` stands for the
`json.JSONDecodeError` raised when a required line fails to parse,
`invalidRunFile` for the `ValueError` of `_update_index`, `notFound` for the
`ValueError` of `_get_resource` / `_get_datum`, `keyError` for Python's
`KeyError`, and `notImplemented` for `NotImplementedError`. -/
inductive CatalogError where
  | malformedDocument
  | invalidRunFile (path : String)
  | notFound (msg : String)
  | keyError (key : String)
  | notImplemented
deriving DecidableEq, Repr

/-- Filter used by `_get_event_cursor` and `_get_event_count`:
`name == 'event' and doc['descriptor'] in descriptor_set`.  Membership in
`set(descriptor_uids)` is membership in the list `descriptor_uids`. -/
def eventMatch (descriptorUids : List String) (l : Line) : Bool :=
  l.1 == "event" && (getField l.2 "descriptor").any (fun d => descriptorUids.contains d)

/-- Filter used by `_get_datum_cursor`:
`name == 'datum' and doc['resource'] == resource_uid`. -/
def datumMatch (resourceUid : String) (l : Line) : Bool :=
  l.1 == "datum" && getField l.2 "resource" == some resourceUid

/-- The shared loop of `_get_event_cursor` and `_get_datum_cursor` (the two
bodies are identical up to the match predicate; one ends an exhausted page
with `break`, the other with `return`, to the same effect).  `c` is
`skip_counter`; a line is yielded when `skip_counter >= skip and
(limit is None or skip_counter < limit)`, and the scan stops early when
`limit is not None and skip_counter >= limit` after the increment. -/
def cursorScan (p : Line → Bool) (skip : Nat) (limit : Option Nat) :
    List Line → Nat → List Doc
  | [], _ => []
  | l :: ls, c =>
    if p l then
      let out := if decide (skip ≤ c) && limit.all (fun lim => decide (c < lim))
                 then [l.2] else []
      if limit.any (fun lim => decide (lim ≤ c + 1)) then out
      else out ++ cursorScan p skip limit ls (c + 1)
    else cursorScan p skip limit ls c

/-- Lazy generator `_get_event_cursor(run_start_uid, descriptor_uids, skip,
limit)`, applied to the lines of the run's file and materialized as the list
of all documents it yields. -/
def getEventCursor (lines : List Line) (descriptorUids : List String)
    (skip : Nat) (limit : Option Nat) : List Doc :=
  cursorScan (eventMatch descriptorUids) skip limit lines 0

/-- Lazy generator `_get_datum_cursor(run_start_uid, resource_uid, skip,
limit)`, materialized as the list of all documents it yields. -/
def getDatumCursor (lines : List Line) (resourceUid : String)
    (skip : Nat) (limit : Option Nat) : List Doc :=
  cursorScan (datumMatch resourceUid) skip limit lines 0

/-- Eager count `_get_event_count(run_start_uid, descriptor_uids)`: one full
scan incrementing a counter on every matching line. -/
def getEventCount (lines : List Line) (descriptorUids : List String) : Nat :=
  List.countP (eventMatch descriptorUids) lines

/-- The full file-order sequence of matching document bodies (the reference
sequence the spec's slices are taken from). -/
def matchSeq (p : Line → Bool) (lines : List Line) : List Doc :=
  (lines.filter p).map (fun l => l.2)

/-- Python slice `xs[skip : skip + limit]` (`limit = None` means `xs[skip:]`):
the slice the spec claims the cursors produce. -/
def sliceSkipPlusLimit (xs : List Doc) (skip : Nat) (limit : Option Nat) : List Doc :=
  match limit with
  | none => xs.drop skip
  | some lim => (xs.drop skip).take lim

/-- Python slice `xs[skip : limit]` (`limit` an absolute end ordinal;
`limit = None` means `xs[skip:]`): the slice the code actually produces. -/
def sliceSkipToLimit (xs : List Doc) (skip : Nat) (limit : Option Nat) : List Doc :=
  match limit with
  | none => xs.drop skip
  | some lim => (xs.take lim).drop skip

/-- Match filter of `_get_resource`:
`name == 'resource' and doc['uid'] == uid`. -/
def resourceMatch (uid : String) (l : Line) : Bool :=
  l.1 == "resource" && getField l.2 "uid" == some uid

/-- Match filter of `_get_datum`:
`name == 'datum' and doc['datum_id'] == datum_id`. -/
def datumIdMatch (datumId : String) (l : Line) : Bool :=
  l.1 == "datum" && getField l.2 "datum_id" == some datumId

/-- First-match lookup `_get_resource(run_start_uid, uid)`; raises
`ValueError` (modelled `notFound`) when the file is exhausted. -/
def getResource (lines : List Line) (uid : String) : Except CatalogError Doc :=
  match lines with
  | [] => .error (.notFound ("Resource uid " ++ uid ++ " not found."))
  | l :: ls => if resourceMatch uid l then .ok l.2 else getResource ls uid

/-- First-match lookup `_get_datum(run_start_uid, datum_id)`; raises
`ValueError` (modelled `notFound`) when the file is exhausted. -/
def getDatum (lines : List Line) (datumId : String) : Except CatalogError Doc :=
  match lines with
  | [] => .error (.notFound ("Datum_id " ++ datumId ++ " not found."))
  | l :: ls => if datumIdMatch datumId l then .ok l.2 else getDatum ls datumId

/-- Lookup `_get_run_stop(run_start_uid)`: parse the last line
(`run_file.readlines()[-1]`), return its body when its name is `stop`, else
`None`.  On an empty file Python raises `IndexError`; an indexed run's file
always has a start first line, so the `none`-last-line branch is unreachable
for runs in the index. -/
def getRunStop (lines : List Line) : Option Doc :=
  match lines.getLast? with
  | some (name, doc) => if name == "stop" then some doc else none
  | none => none

/-- Declarative run-start filter.  Modelled from the spec: the Query Matcher
of §4.2 is realized by the external `mongoquery` library
(`Query(self._query).match(run_start_doc)`), whose code is not part of
`src/`.  The empty filter `{}` is `all` (the only falsy filter value that
occurs); field equality, `$in` and the boolean combinators `$and`, `$or`,
`$not` are carried; dotted paths and numeric comparison operators are
omitted (no claim depends on them) and the value domain is flattened to
strings, like document fields. -/
inductive Query where
  | all
  | eqF (field : String) (value : String)
  | inF (field : String) (values : List String)
  | and (a b : Query)
  | or (a b : Query)
  | not (a : Query)
deriving DecidableEq, Repr

/-- Modelled from the spec: `matches(filter, document)` of §4.2 — the empty
filter matches every document; combinators evaluate recursively. -/
def Query.matches : Query → Doc → Bool
  | .all, _ => true
  | .eqF k v, d => getField d k == some v
  | .inF k vs, d => (getField d k).any (fun x => vs.contains x)
  | .and a b, d => a.matches d && b.matches d
  | .or a b, d => a.matches d || b.matches d
  | .not a, d => !(a.matches d)

/-- One jsonl run file: its path and its parsed lines.  The catalog stores
paths and re-opens them on every access; files are static once discovered
(spec §1), so a path always re-reads to the same lines and the pair models
both the path and what reading it produces. -/
structure RunFile where
  path : String
  lines : List Line
deriving DecidableEq, Repr

/-- Assignment `m[k] = v` on a Python dict, which preserves insertion order:
assigning to a present key updates its value in place, a fresh key is
appended at the end. -/
def dictInsert {α : Type} (k : String) (v : α) : List (String × α) → List (String × α)
  | [] => [(k, v)]
  | p :: ps => if p.1 == k then (k, v) :: ps else p :: dictInsert k v ps

/-- Lookup `m[k]` on a Python dict modelled as an ordered association list;
`none` models the `KeyError` case. -/
def dictFind {α : Type} (m : List (String × α)) (k : String) : Option α :=
  (m.find? (fun p => p.1 == k)).map (fun p => p.2)

/-- Key list of a Python dict, in insertion order. -/
def keysOf {α : Type} (m : List (String × α)) : List String :=
  m.map (fun p => p.1)

/-- The Run Index: `self._runs` (uid to run file) and `self._run_starts`
(uid to start document), both in Python-dict insertion order. -/
structure Index where
  runs : List (String × RunFile)
  runStarts : List (String × Doc)
deriving DecidableEq, Repr

/-- Construction loop `_update_index(file_list)`: for each file, parse its
first line (`json.loads(f.readline())` — on an empty file this fails to
parse, `malformedDocument`); a parsed first line whose name is not `start`
raises `ValueError` (`invalidRunFile`), aborting the whole construction;
otherwise, when the query matches the start document, register
`uid -> file` and `uid -> start doc` (`run_start_doc['uid']` raises
`KeyError` when the field is absent). -/
def updateIndex (q : Query) : List RunFile → Index → Except CatalogError Index
  | [], idx => .ok idx
  | f :: fs, idx =>
    match f.lines.head? with
    | none => .error .malformedDocument
    | some (name, doc) =>
      if name == "start" then
        if q.matches doc then
          match getField doc "uid" with
          | none => .error (.keyError "uid")
          | some uid =>
            updateIndex q fs
              { runs := dictInsert uid f idx.runs,
                runStarts := dictInsert uid doc idx.runStarts }
        else updateIndex q fs idx
      else .error (.invalidRunFile f.path)

/-- A catalog: its filter (`self._query`, which is `{}` when unset) and its
Run Index. -/
structure Catalog where
  query : Query
  index : Index
deriving DecidableEq, Repr

/-- Catalog construction `BlueskyJSONLCatalog(jsonl_filelist, query=...)`:
the Run Index is built from empty maps; a raised error aborts `__init__`, so
no partially built catalog (and no registration) survives a failure. -/
def buildCatalog (files : List RunFile) (q : Query) : Except CatalogError Catalog :=
  (updateIndex q files ⟨[], []⟩).map (fun idx => ⟨q, idx⟩)

/-- Derived sub-catalog `search(query)`: the new file list is
`list(self._runs.values())` and the new filter is
`{'$and': [self._query, query]}` when `self._query` is truthy (any filter
other than the empty `{}`), else `query` alone. -/
def searchCatalog (cat : Catalog) (q : Query) : Except CatalogError Catalog :=
  let combined := if cat.query = Query.all then q else Query.and cat.query q
  buildCatalog (cat.index.runs.map (fun p => p.2)) combined

/-- Nonempty all-digit character list. -/
def digitsNonempty : List Char → Bool
  | [] => false
  | cs => cs.all (fun c => c.isDigit)

/-- Success predicate of Python `int(name)` on a string: an optional sign
followed by one or more digits.  (CPython additionally tolerates surrounding
whitespace and embedded underscores; no claim depends on those forms.) -/
def isIntString (s : String) : Bool :=
  match s.toList with
  | '-' :: cs => digitsNonempty cs
  | '+' :: cs => digitsNonempty cs
  | cs => digitsNonempty cs

/-- Entry lookup `Entries.__getitem__(name)`: a key accepted by `int()` is
reserved for positional addressing and raises `NotImplementedError`;
otherwise `catalog._run_starts[name]` either yields the run's start document
(which `_doc_to_entry` wraps into a host-framework entry object — mechanical
adaptation outside the core, spec §1) or raises `KeyError`. -/
def entriesGetItem (cat : Catalog) (name : String) : Except CatalogError Doc :=
  if isIntString name then .error .notImplemented
  else
    match dictFind cat.index.runStarts name with
    | some doc => .ok doc
    | none => .error (.keyError name)

/-- Membership `Entries.__contains__(key)`: evaluate `self[key]` and catch
only `KeyError` (absent gives `False`, present gives `True`); every other
exception — in particular the `NotImplementedError` raised for numeric
keys — propagates. -/
def entriesContains (cat : Catalog) (key : String) : Except CatalogError Bool :=
  match entriesGetItem cat key with
  | .ok _ => .ok true
  | .error (.keyError _) => .ok false
  | .error e => .error e

/-- First line exists and is a parsed `start` line. -/
def startFirst (f : RunFile) : Bool :=
  match f.lines.head? with
  | some (name, _) => name == "start"
  | none => false

/-- First line's document carries a `uid` field. -/
def hasStartUid (f : RunFile) : Bool :=
  match f.lines.head? with
  | some (_, d) => (getField d "uid").isSome
  | none => false

/-- A file whose first line registers cleanly: a `start` line with a `uid`. -/
def goodFile (f : RunFile) : Bool :=
  match f.lines.head? with
  | some (name, d) => name == "start" && (getField d "uid").isSome
  | none => false

/-- The `uid` of a file's start document, when present. -/
def startUidOf (f : RunFile) : Option String :=
  f.lines.head?.bind (fun l => getField l.2 "uid")

/-- The body of a file's first line, when present. -/
def startDocOf (f : RunFile) : Option Doc :=
  f.lines.head?.map (fun l => l.2)

/-- The query matches the file's start document. -/
def matchesStart (q : Query) (f : RunFile) : Bool :=
  (startDocOf f).any (fun d => q.matches d)

/-- The file would register under uid `u`: a matching `start` first line
whose document's `uid` field equals `u`. -/
def registersAs (q : Query) (u : String) (f : RunFile) : Bool :=
  match f.lines.head? with
  | some (name, d) => name == "start" && q.matches d && getField d "uid" == some u
  | none => false

/-- Effect of a dict assignment on the key list alone. -/
def keyInsert (k : String) : List String → List String
  | [] => [k]
  | k' :: ks => if k' == k then k :: ks else k' :: keyInsert k ks

/-- Sample event document body, referencing descriptor `d1`. -/
def evDoc (i : String) : Doc := [("descriptor", "d1"), ("seq", i)]

/-- Sample run file content: a start, a descriptor, three events for `d1`,
a stop. -/
def evLines : List Line :=
  [("start", [("uid", "r1")]),
   ("descriptor", [("uid", "d1")]),
   ("event", evDoc "0"), ("event", evDoc "1"), ("event", evDoc "2"),
   ("stop", [("exit_status", "success")])]

/-- Sample run file registering uid `r1`. -/
def fileR1 : RunFile := ⟨"r1.jsonl", evLines⟩

/-- Sample file whose first line is a descriptor, not a start document. -/
def badFile : RunFile := ⟨"bad.jsonl", [("descriptor", [("uid", "d9")])]⟩

/-- The catalog built from `fileR1` alone with the empty filter. -/
def catR1 : Catalog :=
  ⟨Query.all, ⟨[("r1", fileR1)], [("r1", [("uid", "r1")])]⟩⟩

/-- Sample run file whose uid is the numeric string `123`. -/
def file123 : RunFile := ⟨"123.jsonl", [("start", [("uid", "123")])]⟩

/-- Catalog holding the run with numeric-string uid `123`. -/
def cat123 : Catalog :=
  ⟨Query.all, ⟨[("123", file123)], [("123", [("uid", "123")])]⟩⟩

/-- Sample start documents sharing uid `u` but differing in field `x`. -/
def startDocA : Doc := [("uid", "u"), ("x", "1")]

/-- Second start document with the same uid and a different `x`. -/
def startDocB : Doc := [("uid", "u"), ("x", "2")]

/-- First of two files declaring the same run uid `u`. -/
def fileA : RunFile := ⟨"a.jsonl", [("start", startDocA)]⟩

/-- Second of two files declaring the same run uid `u`. -/
def fileB : RunFile := ⟨"b.jsonl", [("start", startDocB)]⟩

/-- The registration entries a file list contributes under uid `u`: for each
file whose first line is a matching start document with uid `u`, the pair of
the file and its start document, in input-list order. -/
def regEntries (q : Query) (u : String) : List RunFile → List (RunFile × Doc)
  | [] => []
  | f :: fs =>
    match f.lines.head? with
    | some (name, d) =>
      if name == "start" && q.matches d && getField d "uid" == some u
      then (f, d) :: regEntries q u fs
      else regEntries q u fs
    | none => regEntries q u fs

/-- The catalog built from `[fileA, fileB]` with the empty filter: the later
file wins the shared uid `u`. -/
def catAB : Catalog := ⟨Query.all, ⟨[("u", fileB)], [("u", startDocB)]⟩⟩

/-- Runs map produced by registering, in order, every file whose start
document matches the query, under its start uid (meaningful when uids are
pairwise distinct, so that no overwriting occurs). -/
def selRuns (q : Query) (files : List RunFile) : List (String × RunFile) :=
  (files.filter (matchesStart q)).map (fun f => ((startUidOf f).getD "", f))

/-- Start-document map corresponding to `selRuns`. -/
def selStarts (q : Query) (files : List RunFile) : List (String × Doc) :=
  (files.filter (matchesStart q)).map
    (fun f => ((startUidOf f).getD "", (startDocOf f).getD []))

/-- Unfolding lemma for the no-limit cursor scan: starting at counter `c`
it yields the matching tail after dropping `skip - c` further matches. -/
theorem cursorScan_none (p : Line → Bool) (skip : Nat) (ls : List Line) :
    ∀ c : Nat, cursorScan p skip none ls c = (matchSeq p ls).drop (skip - c) := by
  induction ls with
  | nil => intro c; simp [cursorScan, matchSeq]
  | cons l ls ih =>
    intro c
    by_cases hp : p l
    · simp only [cursorScan, hp, if_true, Option.all_none, Option.any_none,
        Bool.and_true, if_false, matchSeq, List.filter_cons_of_pos,
        List.map_cons, ih (c + 1)]
      rcases le_or_lt skip c with h | h
      · have h0 : skip - c = 0 := Nat.sub_eq_zero_of_le h
        have h1 : skip - (c + 1) = 0 := Nat.sub_eq_zero_of_le (Nat.le_succ_of_le h)
        simp [h, h0, h1, matchSeq]
      · have hdec : decide (skip ≤ c) = false := by simp; omega
        have hsub : skip - c = (skip - (c + 1)) + 1 := by omega
        simp [hdec, hsub, matchSeq]
    · have h2 := ih c
      simp only [matchSeq, List.map_cons] at h2 ⊢
      simp [cursorScan, hp, h2]

/-- Unfolding lemma for the limited cursor scan: starting at counter `c` it
yields the matches with ordinal in `[skip, lim)`, relative to `c`. -/
theorem cursorScan_some (p : Line → Bool) (skip lim : Nat) (ls : List Line) :
    ∀ c : Nat, cursorScan p skip (some lim) ls c =
      ((matchSeq p ls).take (lim - c)).drop (skip - c) := by
  induction ls with
  | nil => intro c; simp [cursorScan, matchSeq]
  | cons l ls ih =>
    intro c
    by_cases hp : p l
    · simp only [cursorScan, hp, if_true, Option.all_some, Option.any_some,
        matchSeq, List.filter_cons_of_pos, List.map_cons]
      rcases Nat.lt_or_ge c lim with hc | hc
      · have hclim : decide (c < lim) = true := by simpa using hc
        rcases le_or_lt lim (c + 1) with hbr | hbr
        · have hlim1 : lim = c + 1 := by omega
          have hbr' : decide (lim ≤ c + 1) = true := by simpa using hbr
          have htake : lim - c = 1 := by omega
          rcases le_or_lt skip c with h | h
          · have h0 : skip - c = 0 := Nat.sub_eq_zero_of_le h
            simp [hbr', hclim, h, htake, h0, matchSeq]
          · have hdec : decide (skip ≤ c) = false := by simp; omega
            have hsub : skip - c = (skip - (c + 1)) + 1 := by omega
            simp [hbr', hclim, hdec, htake, hsub, matchSeq]
        · have hbr' : decide (lim ≤ c + 1) = false := by simp; omega
          have htake : lim - c = (lim - (c + 1)) + 1 := by omega
          rw [ih (c + 1)]
          rcases le_or_lt skip c with h | h
          · have h0 : skip - c = 0 := Nat.sub_eq_zero_of_le h
            have h1 : skip - (c + 1) = 0 := Nat.sub_eq_zero_of_le (Nat.le_succ_of_le h)
            simp [hbr', hclim, h, htake, h0, h1, matchSeq]
          · have hdec : decide (skip ≤ c) = false := by simp; omega
            have hsub : skip - c = (skip - (c + 1)) + 1 := by omega
            simp [hbr', hclim, hdec, htake, hsub, matchSeq]
      · have hclim : decide (c < lim) = false := by simp; omega
        have hbr' : decide (lim ≤ c + 1) = true := by simp; omega
        have htake : lim - c = 0 := Nat.sub_eq_zero_of_le hc
        simp [hbr', hclim, htake, matchSeq]
    · have h2 := ih c
      simp only [matchSeq, List.map_cons] at h2 ⊢
      simp [cursorScan, hp, h2]

theorem dictFind_nil {α : Type} (u : String) :
    dictFind ([] : List (String × α)) u = none := rfl

theorem dictFind_cons {α : Type} (p : String × α) (ps : List (String × α)) (u : String) :
    dictFind (p :: ps) u = if p.1 == u then some p.2 else dictFind ps u := by
  cases h : p.1 == u <;> simp [dictFind, List.find?_cons, h]

theorem dictFind_insert {α : Type} (k : String) (v : α) (m : List (String × α)) (u : String) :
    dictFind (dictInsert k v m) u = if k == u then some v else dictFind m u := by
  induction m with
  | nil => simp [dictInsert, dictFind_cons, dictFind_nil]
  | cons p ps ih =>
    by_cases hpk : p.1 = k
    · simp only [dictInsert, hpk, beq_self_eq_true, if_true, dictFind_cons]
      by_cases hku : k = u
      · simp [hku]
      · have : (k == u) = false := by simp [hku]
        simp [this, hpk]
    · have hpk' : (p.1 == k) = false := by simp [hpk]
      simp only [dictInsert, hpk', Bool.false_eq_true, if_false, dictFind_cons, ih]
      by_cases hpu : p.1 = u
      · have hku : (k == u) = false := by simp; intro h; exact hpk (by rw [hpu, h])
        simp [hpu, hku]
      · have hpu' : (p.1 == u) = false := by simp [hpu]
        simp [hpu']

theorem mem_dictInsert {α : Type} (k : String) (v : α) (m : List (String × α))
    (p : String × α) (hp : p ∈ dictInsert k v m) : p = (k, v) ∨ p ∈ m := by
  induction m with
  | nil => simpa [dictInsert] using hp
  | cons q qs ih =>
    by_cases hq : q.1 = k
    · simp only [dictInsert, hq, beq_self_eq_true, if_true] at hp
      rcases List.mem_cons.mp hp with h | h
      · exact Or.inl h
      · exact Or.inr (List.mem_cons_of_mem _ h)
    · have hq' : (q.1 == k) = false := by simp [hq]
      simp only [dictInsert, hq', Bool.false_eq_true, if_false] at hp
      rcases List.mem_cons.mp hp with h | h
      · exact Or.inr (h ▸ List.mem_cons_self q qs)
      · rcases ih h with h' | h'
        · exact Or.inl h'
        · exact Or.inr (List.mem_cons_of_mem _ h')

theorem keysOf_nil {α : Type} : keysOf ([] : List (String × α)) = [] := rfl

theorem keysOf_cons {α : Type} (p : String × α) (ps : List (String × α)) :
    keysOf (p :: ps) = p.1 :: keysOf ps := rfl

theorem keysOf_dictInsert {α : Type} (k : String) (v : α) (m : List (String × α)) :
    keysOf (dictInsert k v m) = keyInsert k (keysOf m) := by
  induction m with
  | nil => rfl
  | cons q qs ih =>
    by_cases hq : q.1 = k
    · have hq' : (q.1 == k) = true := by simp [hq]
      simp [dictInsert, keyInsert, hq', keysOf]
    · have hq' : (q.1 == k) = false := by simp [hq]
      have ih' := ih
      simp only [keysOf] at ih'
      simp [dictInsert, keyInsert, hq', keysOf, ih']

theorem mem_keyInsert (k x : String) (ks : List String) (hx : x ∈ keyInsert k ks) :
    x = k ∨ x ∈ ks := by
  induction ks with
  | nil => simpa [keyInsert] using hx
  | cons k' ks ih =>
    by_cases hk : k' = k
    · simp only [keyInsert, hk, beq_self_eq_true, if_true] at hx
      rcases List.mem_cons.mp hx with h | h
      · exact Or.inl h
      · exact Or.inr (List.mem_cons_of_mem _ h)
    · have hk' : (k' == k) = false := by simp [hk]
      simp only [keyInsert, hk', Bool.false_eq_true, if_false] at hx
      rcases List.mem_cons.mp hx with h | h
      · exact Or.inr (h ▸ List.mem_cons_self k' ks)
      · rcases ih h with h' | h'
        · exact Or.inl h'
        · exact Or.inr (List.mem_cons_of_mem _ h')

theorem keyInsert_nodup (k : String) (ks : List String) (h : ks.Nodup) :
    (keyInsert k ks).Nodup := by
  induction ks with
  | nil => simp [keyInsert]
  | cons k' ks ih =>
    rcases List.nodup_cons.mp h with ⟨hknotin, hks⟩
    by_cases hk : k' = k
    · simp only [keyInsert, hk, beq_self_eq_true, if_true]
      exact List.nodup_cons.mpr ⟨hk ▸ hknotin, hks⟩
    · have hkb : (k' == k) = false := by simp [hk]
      simp only [keyInsert, hkb, Bool.false_eq_true, if_false]
      refine List.nodup_cons.mpr ⟨fun hmem => ?_, ih hks⟩
      rcases mem_keyInsert k k' ks hmem with h' | h'
      · exact hk h'
      · exact hknotin h'

theorem countP_key_of_nodup {α : Type} (m : List (String × α)) (u : String)
    (h : (keysOf m).Nodup) :
    m.countP (fun p => p.1 == u) = if (dictFind m u).isSome then 1 else 0 := by
  induction m with
  | nil => simp [dictFind_nil]
  | cons p ps ih =>
    rcases List.nodup_cons.mp h with ⟨hnot, hps⟩
    rw [dictFind_cons]
    by_cases hpu : p.1 = u
    · have hz : ps.countP (fun q => q.1 == u) = 0 := by
        rw [List.countP_eq_zero]
        intro a ha hbeq
        have heq : a.1 = u := by simpa using hbeq
        have hmem : p.1 ∈ List.map (fun p => p.1) ps := by
          rw [hpu, ← heq]; exact List.mem_map_of_mem _ ha
        exact hnot hmem
      simp [List.countP_cons, hpu, hz]
    · have hpu' : (p.1 == u) = false := by simp [hpu]
      simp [List.countP_cons, hpu', ih hps]

/-- C1 (counterexample): with `skip = 1` and `limit = 2` on a run holding
three matching events, the cursor yields one document, not the two documents
of the claimed slice `matches[skip : skip + limit]`: in the code `limit`
bounds the absolute match ordinal, it is not a count of yielded items. -/
theorem eventCursor_slice_counterexample :
    getEventCursor evLines ["d1"] 1 (some 2) ≠
      sliceSkipPlusLimit (matchSeq (eventMatch ["d1"]) evLines) 1 (some 2) := by
  decide

/-- C1 (amended): for every run file, descriptor-uid set, resource uid, skip
and limit, the event cursor (resp. the datum cursor) yields exactly the slice
`matches[skip : limit]` of the file-order sequence of matching event (resp.
datum) document bodies, where `limit` is an absolute end ordinal and
`limit = None` means no upper bound; in particular the sequence is empty when
`skip` is at least the total number of matches. -/
theorem eventCursor_datumCursor_yield_slice (lines : List Line)
    (descriptorUids : List String) (resourceUid : String)
    (skip : Nat) (limit : Option Nat) :
    getEventCursor lines descriptorUids skip limit =
      sliceSkipToLimit (matchSeq (eventMatch descriptorUids) lines) skip limit ∧
    getDatumCursor lines resourceUid skip limit =
  sliceSkipToLimit (matchSeq (datumMatch resourceUid) lines) skip limit := by
  cases limit with
  | none =>
    constructor
    · simpa [getEventCursor, sliceSkipToLimit] using
        cursorScan_none (eventMatch descriptorUids) skip lines 0
    · simpa [getDatumCursor, sliceSkipToLimit] using
        cursorScan_none (datumMatch resourceUid) skip lines 0
  | some lim =>
    constructor
    · simpa [getEventCursor, sliceSkipToLimit] using
        cursorScan_some (eventMatch descriptorUids) skip lim lines 0
    · simpa [getDatumCursor, sliceSkipToLimit] using
        cursorScan_some (datumMatch resourceUid) skip lim lines 0

/-- C2: `_get_event_count(uid, D)` equals the number of items yielded by
`_get_event_cursor(uid, D, skip=0, limit=None)`. -/
theorem eventCount_eq_eventCursor_length (lines : List Line)
    (descriptorUids : List String) :
    getEventCount lines descriptorUids =
      (getEventCursor lines descriptorUids 0 none).length := by
  rw [getEventCursor, cursorScan_none]
  simp [getEventCount, matchSeq, List.countP_eq_length_filter]

/-- C5: resource and datum lookup return the body of the first matching line
in file order, even when duplicates occur later, and raise `NotFound` exactly
when the file is exhausted without any match. -/
theorem resource_datum_first_match_or_notFound (lines : List Line)
    (resourceUid datumId : String) :
    getResource lines resourceUid =
      (match lines.find? (resourceMatch resourceUid) with
       | some l => .ok l.2
       | none => .error (.notFound ("Resource uid " ++ resourceUid ++ " not found."))) ∧
    getDatum lines datumId =
      (match lines.find? (datumIdMatch datumId) with
       | some l => .ok l.2
       | none => .error (.notFound ("Datum_id " ++ datumId ++ " not found."))) := by
  constructor
  · induction lines with
    | nil => rfl
    | cons l ls ih =>
      by_cases hp : resourceMatch resourceUid l
      · simp [getResource, hp, List.find?_cons_of_pos]
      · simp [getResource, hp, List.find?_cons_of_neg, ih]
  · induction lines with
    | nil => rfl
    | cons l ls ih =>
      by_cases hp : datumIdMatch datumId l
      · simp [getDatum, hp, List.find?_cons_of_pos]
      · simp [getDatum, hp, List.find?_cons_of_neg, ih]

/-- C7: `_get_run_stop` parses only the final line of the run's file and
returns its body when that line's kind is `stop`, and `None` (not an error)
otherwise. -/
theorem runStop_from_last_line (lines : List Line) (name : String) (doc : Doc)
    (h : lines.getLast? = some (name, doc)) :
    getRunStop lines = if name = "stop" then some doc else none := by
  simp [getRunStop, h, beq_iff_eq]

/-- Witness for C7 at a concrete run file whose last line is a stop document. -/
theorem runStop_from_last_line_witness :
    evLines.getLast? = some ("stop", [("exit_status", "success")]) ∧
      getRunStop evLines =
        if "stop" = "stop" then some [("exit_status", "success")] else none :=
  ⟨by decide, runStop_from_last_line evLines "stop" [("exit_status", "success")] (by decide)⟩

/-- The construction loop fails with `InvalidRunFile` as soon as a file with
a parsed non-start first line is reached, whatever the accumulated index. -/
theorem updateIndex_invalid (q : Query) (files : List RunFile) :
    ∀ idx : Index,
      (∃ f ∈ files, startFirst f = false) →
      (∀ f ∈ files, f.lines ≠ []) →
      (∀ f ∈ files, startFirst f = true → hasStartUid f = true) →
      ∃ p, updateIndex q files idx = .error (.invalidRunFile p) := by
  induction files with
  | nil =>
    intro idx hbad _ _
    rcases hbad with ⟨f, hf, _⟩
    exact absurd hf (List.not_mem_nil f)
  | cons f fs ih =>
    intro idx hbad hparse huid
    obtain ⟨name, doc, hl⟩ : ∃ name doc, f.lines.head? = some (name, doc) := by
      have hne := hparse f (List.mem_cons_self f fs)
      cases hfl : f.lines with
      | nil => exact absurd hfl hne
      | cons a as => exact ⟨a.1, a.2, by simp [hfl]⟩
    by_cases hsf : startFirst f = true
    · have hname : (name == "start") = true := by
        have h := hsf
        simp only [startFirst, hl] at h
        exact h
      obtain ⟨g, hg, hgbad⟩ := hbad
      have hgfs : g ∈ fs := by
        rcases List.mem_cons.mp hg with h | h
        · rw [h] at hgbad; rw [hgbad] at hsf; cases hsf
        · exact h
      have hbad' : ∃ f ∈ fs, startFirst f = false := ⟨g, hgfs, hgbad⟩
      have hparse' : ∀ f ∈ fs, f.lines ≠ [] :=
        fun f hf => hparse f (List.mem_cons_of_mem _ hf)
      have huid' : ∀ f ∈ fs, startFirst f = true → hasStartUid f = true :=
        fun f hf => huid f (List.mem_cons_of_mem _ hf)
      by_cases hm : q.matches doc = true
      · have huidf : (getField doc "uid").isSome := by
          have h := huid f (List.mem_cons_self f fs) hsf
          simpa [hasStartUid, hl] using h
        obtain ⟨uid, huidf'⟩ := Option.isSome_iff_exists.mp huidf
        obtain ⟨p, hp⟩ := ih _ hbad' hparse' huid'
        refine ⟨p, ?_⟩
        simp only [updateIndex, hl, hname, if_true, hm, huidf']
        exact hp
      · obtain ⟨p, hp⟩ := ih idx hbad' hparse' huid'
        refine ⟨p, ?_⟩
        have hm' : q.matches doc = false := by
          cases h : q.matches doc
          · rfl
          · exact absurd h hm
        simp only [updateIndex, hl, hname, if_true, hm', Bool.false_eq_true, if_false]
        exact hp
    · have hname : (name == "start") = false := by
        cases h : (name == "start")
        · rfl
        · exact absurd (by simp only [startFirst, hl]; exact h) hsf
      refine ⟨f.path, ?_⟩
      simp only [updateIndex, hl, hname, Bool.false_eq_true, if_false]

/-- C3: when some input file's first line parses but is not a start document,
the whole catalog construction raises `InvalidRunFile` — it is not per-file
recoverable — and no uid registration survives, since no catalog value is
produced at all.  The two side conditions state what the data model (spec §3)
guarantees of the remaining input: every file has a parseable first line, and
every start document carries a `uid` field. -/
theorem construction_invalidRunFile (files : List RunFile) (q : Query)
    (hbad : ∃ f ∈ files, startFirst f = false)
    (hparse : ∀ f ∈ files, f.lines ≠ [])
    (huid : ∀ f ∈ files, startFirst f = true → hasStartUid f = true) :
    ∃ p, buildCatalog files q = .error (.invalidRunFile p) := by
  obtain ⟨p, hp⟩ := updateIndex_invalid q files ⟨[], []⟩ hbad hparse huid
  exact ⟨p, by simp [buildCatalog, hp, Except.map]⟩

/-- Witness for C3: one good file followed by a file starting with a
descriptor line. -/
theorem construction_invalidRunFile_witness :
    ∃ p, buildCatalog [fileR1, badFile] Query.all = .error (.invalidRunFile p) :=
  construction_invalidRunFile [fileR1, badFile] Query.all
    (by decide) (by decide) (by decide)

/-- The construction loop preserves the alignment of the two index maps:
equal key sequences, and every stored start document's `uid` field equal to
its key. -/
theorem updateIndex_inv (q : Query) (files : List RunFile) :
    ∀ idx out : Index,
      updateIndex q files idx = .ok out →
      keysOf idx.runs = keysOf idx.runStarts →
      (∀ p ∈ idx.runStarts, getField p.2 "uid" = some p.1) →
      keysOf out.runs = keysOf out.runStarts ∧
        ∀ p ∈ out.runStarts, getField p.2 "uid" = some p.1 := by
  induction files with
  | nil =>
    intro idx out hok hkeys hmem
    simp only [updateIndex, Except.ok.injEq] at hok
    exact hok ▸ ⟨hkeys, hmem⟩
  | cons f fs ih =>
    intro idx out hok hkeys hmem
    cases hl : f.lines.head? with
    | none => simp [updateIndex, hl] at hok
    | some l =>
      obtain ⟨name, doc⟩ := l
      by_cases hname : (name == "start") = true
      · by_cases hm : q.matches doc = true
        · cases hg : getField doc "uid" with
          | none => simp [updateIndex, hl, hname, if_true, hm, hg] at hok
          | some uid =>
            simp only [updateIndex, hl, hname, if_true, hm, hg] at hok
            refine ih _ out hok ?_ ?_
            · simp only [keysOf_dictInsert, hkeys]
            · intro p hp
              rcases mem_dictInsert uid doc idx.runStarts p hp with h | h
              · rw [h]; exact hg
              · exact hmem p h
        · have hm' : q.matches doc = false := by
            cases h : q.matches doc
            · rfl
            · exact absurd h hm
          simp only [updateIndex, hl, hname, if_true, hm', Bool.false_eq_true,
            if_false] at hok
          exact ih idx out hok hkeys hmem
      · have hname' : (name == "start") = false := by
          cases h : (name == "start")
          · rfl
          · exact absurd h hname
        simp [updateIndex, hl, hname', Bool.false_eq_true, if_false] at hok

/-- C10: every catalog reachable by a successful construction or by a
successful `search` has aligned index maps — `self._runs` and
`self._run_starts` carry exactly the same keys in the same relative order,
and each stored start document's `uid` field equals the key it is stored
under. -/
theorem index_maps_aligned :
    (∀ (files : List RunFile) (q : Query) (cat : Catalog),
        buildCatalog files q = .ok cat →
        keysOf cat.index.runs = keysOf cat.index.runStarts ∧
          ∀ p ∈ cat.index.runStarts, getField p.2 "uid" = some p.1) ∧
    (∀ (cat : Catalog) (q : Query) (cat' : Catalog),
        searchCatalog cat q = .ok cat' →
        keysOf cat'.index.runs = keysOf cat'.index.runStarts ∧
          ∀ p ∈ cat'.index.runStarts, getField p.2 "uid" = some p.1) := by
  have hbuild : ∀ (files : List RunFile) (q : Query) (cat : Catalog),
      buildCatalog files q = .ok cat →
      keysOf cat.index.runs = keysOf cat.index.runStarts ∧
        ∀ p ∈ cat.index.runStarts, getField p.2 "uid" = some p.1 := by
    intro files q cat hok
    cases hup : updateIndex q files ⟨[], []⟩ with
    | error e => simp [buildCatalog, hup, Except.map] at hok
    | ok idx =>
      have hcat : cat.index = idx := by
        simp [buildCatalog, hup, Except.map] at hok
        rw [← hok]
      rw [hcat]
      exact updateIndex_inv q files ⟨[], []⟩ idx hup rfl (by intro p hp; cases hp)
  refine ⟨hbuild, fun cat q cat' hok => ?_⟩
  exact hbuild _ _ _ hok

/-- Witness for C10 at the concrete one-file catalog `catR1`. -/
theorem index_maps_aligned_witness :
    keysOf catR1.index.runs = keysOf catR1.index.runStarts ∧
      ∀ p ∈ catR1.index.runStarts, getField p.2 "uid" = some p.1 :=
  index_maps_aligned.1 [fileR1] Query.all catR1 (by rfl)

/-- C8: entry lookup on the facade fails with `NotImplemented` exactly on
keys accepted by `int()` (numeric strings); on every other key it returns the
entry (the registered start document) when the uid is in the index and fails
with the key-absent error (`KeyError`) otherwise. -/
theorem entries_getitem_spec (cat : Catalog) (name : String) :
    (isIntString name = true → entriesGetItem cat name = .error .notImplemented) ∧
    (isIntString name = false →
      ((∀ doc, dictFind cat.index.runStarts name = some doc →
          entriesGetItem cat name = .ok doc) ∧
       (dictFind cat.index.runStarts name = none →
          entriesGetItem cat name = .error (.keyError name)))) := by
  refine ⟨fun h => by simp [entriesGetItem, h],
    fun h => ⟨fun doc hd => ?_, fun hd => ?_⟩⟩
  · simp [entriesGetItem, h, hd]
  · simp [entriesGetItem, h, hd]

/-- Witness for C8: on `catR1`, the numeric key `-1` is rejected with
`NotImplemented` and the non-numeric key `r1` returns its start document. -/
theorem entries_getitem_spec_witness :
    entriesGetItem catR1 "-1" = .error .notImplemented ∧
      entriesGetItem catR1 "r1" = .ok [("uid", "r1")] :=
  ⟨(entries_getitem_spec catR1 "-1").1 (by decide),
   ((entries_getitem_spec catR1 "r1").2 (by decide)).1 [("uid", "r1")] (by decide)⟩

/-- C9: the membership test returns a boolean only for keys `int()` rejects
(`True` when the uid is present, `False` when absent); for a key accepted by
`int()` — even a numeric-string uid actually present in the index — it
raises `NotImplementedError` instead of returning a boolean, because
`__contains__` catches only `KeyError`. -/
theorem entries_contains_spec (cat : Catalog) (key : String) :
    (isIntString key = true → entriesContains cat key = .error .notImplemented) ∧
    (isIntString key = false →
      entriesContains cat key = .ok (dictFind cat.index.runStarts key).isSome) := by
  constructor
  · intro h
    simp [entriesContains, entriesGetItem, h]
  · intro h
    cases hd : dictFind cat.index.runStarts key with
    | none => simp [entriesContains, entriesGetItem, h, hd]
    | some doc => simp [entriesContains, entriesGetItem, h, hd]

/-- Witness for C9: on `cat123`, membership for the present numeric-string
uid `123` raises `NotImplementedError`, and for an absent non-numeric key
it returns `False`. -/
theorem entries_contains_spec_witness :
    entriesContains cat123 "123" = .error .notImplemented ∧
      entriesContains cat123 "absent" = .ok false :=
  ⟨(entries_contains_spec cat123 "123").1 (by decide),
   by simpa using (entries_contains_spec cat123 "absent").2 (by decide)⟩

theorem getLastOrMap_cons {α β : Type} (x : α) (l : List α) (g : α → β) (z : Option β) :
    (((x :: l).getLast?).map g).or z = ((l.getLast?).map g).or (some (g x)) := by
  cases l with
  | nil => simp [Option.or]
  | cons y ys =>
    rw [List.getLast?_cons_cons]
    have h : ((y :: ys).getLast?).isSome := List.getLast?_isSome.mpr (by simp)
    obtain ⟨w, hw⟩ := Option.isSome_iff_exists.mp h
    simp [hw, Option.or]

theorem regEntries_map_fst (q : Query) (u : String) (files : List RunFile) :
    (regEntries q u files).map Prod.fst = files.filter (registersAs q u) := by
  induction files with
  | nil => rfl
  | cons f fs ih =>
    cases hl : f.lines.head? with
    | none =>
      have hreg : registersAs q u f = false := by simp [registersAs, hl]
      simp [regEntries, hl, hreg, ih]
    | some l =>
      obtain ⟨name, d⟩ := l
      have hreg : registersAs q u f =
          (name == "start" && q.matches d && getField d "uid" == some u) := by
        simp [registersAs, hl]
      cases hc : (name == "start" && q.matches d && getField d "uid" == some u) with
      | true => simp [regEntries, hl, hc, List.filter_cons, hreg, ih]
      | false => simp [regEntries, hl, hc, List.filter_cons, hreg, ih]

theorem regEntries_startDoc (q : Query) (u : String) (files : List RunFile) :
    ∀ e ∈ regEntries q u files, startDocOf e.1 = some e.2 := by
  induction files with
  | nil => intro e he; cases he
  | cons f fs ih =>
    intro e he
    cases hl : f.lines.head? with
    | none =>
      simp only [regEntries, hl] at he
      exact ih e he
    | some l =>
      obtain ⟨name, d⟩ := l
      cases hc : (name == "start" && q.matches d && getField d "uid" == some u) with
      | true =>
        simp only [regEntries, hl, hc, if_true] at he
        rcases List.mem_cons.mp he with h | h
        · rw [h]; simp [startDocOf, hl]
        · exact ih e h
      | false =>
        simp only [regEntries, hl, hc, Bool.false_eq_true, if_false] at he
        exact ih e he

/-- The construction loop's final binding for a given uid is the last
registration in input order, falling back to whatever the accumulated index
already bound. -/
theorem updateIndex_find (q : Query) (u : String) (files : List RunFile) :
    ∀ idx out : Index, updateIndex q files idx = .ok out →
      dictFind out.runs u =
        (((regEntries q u files).getLast?).map Prod.fst).or (dictFind idx.runs u) ∧
      dictFind out.runStarts u =
        (((regEntries q u files).getLast?).map Prod.snd).or (dictFind idx.runStarts u) := by
  induction files with
  | nil =>
    intro idx out hok
    simp only [updateIndex, Except.ok.injEq] at hok
    subst hok
    simp [regEntries, Option.or]
  | cons f fs ih =>
    intro idx out hok
    cases hl : f.lines.head? with
    | none => simp [updateIndex, hl] at hok
    | some l =>
      obtain ⟨name, d⟩ := l
      by_cases hname : (name == "start") = true
      · by_cases hm : q.matches d = true
        · cases hg : getField d "uid" with
          | none => simp [updateIndex, hl, hname, hm, hg] at hok
          | some uid =>
            simp only [updateIndex, hl, hname, if_true, hm, hg] at hok
            obtain ⟨h1, h2⟩ := ih _ out hok
            by_cases hu : uid = u
            · have hc : (name == "start" && q.matches d && getField d "uid" == some u)
                  = true := by simp [hname, hm, hg, hu]
              constructor
              · rw [h1, dictFind_insert]
                have huu : (uid == u) = true := by simp [hu]
                simp only [regEntries, hl, hc, if_true, getLastOrMap_cons, huu]
              · rw [h2, dictFind_insert]
                have huu : (uid == u) = true := by simp [hu]
                simp only [regEntries, hl, hc, if_true, getLastOrMap_cons, huu]
            · have hc : (name == "start" && q.matches d && getField d "uid" == some u)
                  = false := by simp [hname, hm, hg]; exact hu
              have hfind : ∀ {α : Type} (m : List (String × α)) (v : α),
                  dictFind (dictInsert uid v m) u = dictFind m u := by
                intro α m v
                rw [dictFind_insert]
                have : (uid == u) = false := by simp [hu]
                simp [this]
              constructor
              · rw [h1, hfind]
                simp only [regEntries, hl, hc, Bool.false_eq_true, if_false]
              · rw [h2, hfind]
                simp only [regEntries, hl, hc, Bool.false_eq_true, if_false]
        · have hm' : q.matches d = false := by
            cases h : q.matches d
            · rfl
            · exact absurd h hm
          simp only [updateIndex, hl, hname, if_true, hm', Bool.false_eq_true,
            if_false] at hok
          have hc : (name == "start" && q.matches d && getField d "uid" == some u)
              = false := by simp [hname, hm']
          obtain ⟨h1, h2⟩ := ih idx out hok
          constructor
          · rw [h1]; simp only [regEntries, hl, hc, Bool.false_eq_true, if_false]
          · rw [h2]; simp only [regEntries, hl, hc, Bool.false_eq_true, if_false]
      · have hname' : (name == "start") = false := by
          cases h : (name == "start")
          · rfl
          · exact absurd h hname
        simp [updateIndex, hl, hname', Bool.false_eq_true, if_false] at hok

/-- A successful construction determines the index through `updateIndex`
started from the empty maps. -/
theorem buildCatalog_ok (files : List RunFile) (q : Query) (cat : Catalog)
    (hok : buildCatalog files q = .ok cat) :
    updateIndex q files ⟨[], []⟩ = .ok cat.index := by
  cases hup : updateIndex q files ⟨[], []⟩ with
  | error e => simp [buildCatalog, hup, Except.map] at hok
  | ok idx =>
    simp [buildCatalog, hup, Except.map] at hok
    rw [← hok]

/-- The construction loop keeps the run-map key list duplicate-free. -/
theorem updateIndex_nodup (q : Query) (files : List RunFile) :
    ∀ idx out : Index, updateIndex q files idx = .ok out →
      (keysOf idx.runs).Nodup → (keysOf out.runs).Nodup := by
  induction files with
  | nil =>
    intro idx out hok hnd
    simp only [updateIndex, Except.ok.injEq] at hok
    exact hok ▸ hnd
  | cons f fs ih =>
    intro idx out hok hnd
    cases hl : f.lines.head? with
    | none => simp [updateIndex, hl] at hok
    | some l =>
      obtain ⟨name, d⟩ := l
      by_cases hname : (name == "start") = true
      · by_cases hm : q.matches d = true
        · cases hg : getField d "uid" with
          | none => simp [updateIndex, hl, hname, hm, hg] at hok
          | some uid =>
            simp only [updateIndex, hl, hname, if_true, hm, hg] at hok
            refine ih _ out hok ?_
            rw [keysOf_dictInsert]
            exact keyInsert_nodup uid _ hnd
        · have hm' : q.matches d = false := by
            cases h : q.matches d
            · rfl
            · exact absurd h hm
          simp only [updateIndex, hl, hname, if_true, hm', Bool.false_eq_true,
            if_false] at hok
          exact ih idx out hok hnd
      · have hname' : (name == "start") = false := by
          cases h : (name == "start")
          · rfl
          · exact absurd h hname
        simp [updateIndex, hl, hname', Bool.false_eq_true, if_false] at hok

/-- C6: in every successfully constructed catalog, the binding for a uid `u`
is decided by the last file in input-list order whose matching start document
declares `u` (silent last-write-wins): the runs map binds `u` to that file,
the start-document map binds `u` to that file's start document, and the index
holds exactly one entry for `u` whenever at least one file registers it. -/
theorem duplicate_uid_last_write_wins (files : List RunFile) (q : Query)
    (cat : Catalog) (u : String) (hok : buildCatalog files q = .ok cat) :
    dictFind cat.index.runs u = (files.filter (registersAs q u)).getLast? ∧
    dictFind cat.index.runStarts u =
      ((files.filter (registersAs q u)).getLast?).bind startDocOf ∧
    cat.index.runs.countP (fun p => p.1 == u) =
      (if files.any (registersAs q u) then 1 else 0) := by
  have hup := buildCatalog_ok files q cat hok
  obtain ⟨h1, h2⟩ := updateIndex_find q u files ⟨[], []⟩ cat.index hup
  have hfilter : (files.filter (registersAs q u)).getLast? =
      ((regEntries q u files).getLast?).map Prod.fst := by
    rw [← regEntries_map_fst, List.getLast?_map]
  have hruns : dictFind cat.index.runs u = (files.filter (registersAs q u)).getLast? := by
    rw [h1, hfilter, dictFind_nil, Option.or_none]
  refine ⟨hruns, ?_, ?_⟩
  · rw [h2, dictFind_nil, Option.or_none, hfilter]
    cases hE : (regEntries q u files).getLast? with
    | none => simp
    | some e =>
      have he : e ∈ regEntries q u files :=
        List.mem_of_mem_getLast? (by simp [hE])
      have hsd := regEntries_startDoc q u files e he
      simp [hE, hsd]
  · have hnd := updateIndex_nodup q files ⟨[], []⟩ cat.index hup (by simp [keysOf])
    rw [countP_key_of_nodup cat.index.runs u hnd, hruns]
    by_cases hany : files.any (registersAs q u) = true
    · obtain ⟨a, ha, hpa⟩ := List.any_eq_true.mp hany
      have hmem : a ∈ files.filter (registersAs q u) := List.mem_filter.mpr ⟨ha, hpa⟩
      have hne : files.filter (registersAs q u) ≠ [] := by
        intro h; rw [h] at hmem; cases hmem
      simp [hany, List.getLast?_isSome.mpr hne]
      exact ⟨a, ha, hpa⟩
    · have hany' : files.any (registersAs q u) = false := by
        cases h : files.any (registersAs q u)
        · rfl
        · exact absurd h hany
      have hnil : files.filter (registersAs q u) = [] := by
        rw [List.filter_eq_nil_iff]
        intro a ha hpa
        exact hany (List.any_eq_true.mpr ⟨a, ha, hpa⟩)
      simp [hany', hnil]

/-- Witness for C6: two files declaring uid `u`, both passing the empty
filter; the index binds `u` to the later file `fileB` and its start document,
with exactly one entry. -/
theorem duplicate_uid_last_write_wins_witness :
    dictFind catAB.index.runs "u" =
      (([fileA, fileB]).filter (registersAs Query.all "u")).getLast? ∧
    dictFind catAB.index.runStarts "u" =
      ((([fileA, fileB]).filter (registersAs Query.all "u")).getLast?).bind startDocOf ∧
    catAB.index.runs.countP (fun p => p.1 == "u") =
      (if ([fileA, fileB]).any (registersAs Query.all "u") then 1 else 0) :=
  duplicate_uid_last_write_wins [fileA, fileB] Query.all catAB "u" (by rfl)

theorem dictInsert_of_fresh {α : Type} (k : String) (v : α) (m : List (String × α))
    (h : k ∉ keysOf m) : dictInsert k v m = m ++ [(k, v)] := by
  induction m with
  | nil => rfl
  | cons p ps ih =>
    rw [keysOf_cons, List.mem_cons] at h
    push_neg at h
    have hpk : (p.1 == k) = false := by
      simp only [beq_eq_false_iff_ne, ne_eq]
      exact fun he => h.1 he.symm
    simp only [dictInsert, hpk, Bool.false_eq_true, if_false, List.cons_append,
      ih h.2]

/-- When every file registers under a fresh, pairwise-distinct uid, the
construction loop simply appends one entry per matching file, in input
order. -/
theorem updateIndex_good (q : Query) (files : List RunFile) :
    ∀ idx : Index,
      (∀ f ∈ files, goodFile f = true) →
      ((files.filterMap startUidOf).Nodup) →
      (∀ f ∈ files, ∀ u, startUidOf f = some u →
          u ∉ keysOf idx.runs ∧ u ∉ keysOf idx.runStarts) →
      updateIndex q files idx =
        .ok ⟨idx.runs ++ selRuns q files, idx.runStarts ++ selStarts q files⟩ := by
  induction files with
  | nil => intro idx _ _ _; simp [updateIndex, selRuns, selStarts]
  | cons f fs ih =>
    intro idx hgood hnd hfresh
    have hgf := hgood f (List.mem_cons_self f fs)
    obtain ⟨name, d, hl⟩ : ∃ name d, f.lines.head? = some (name, d) := by
      cases hfl : f.lines.head? with
      | none => simp [goodFile, hfl] at hgf
      | some a => exact ⟨a.1, a.2, by simp [hfl]⟩
    have hparts : (name == "start") = true ∧ (getField d "uid").isSome := by
      simpa [goodFile, hl, Bool.and_eq_true] using hgf
    obtain ⟨uid, hg⟩ := Option.isSome_iff_exists.mp hparts.2
    have hsu : startUidOf f = some uid := by simp [startUidOf, hl, hg]
    have hsd : startDocOf f = some d := by simp [startDocOf, hl]
    have hfm : (f :: fs).filterMap startUidOf = uid :: fs.filterMap startUidOf := by
      simp [List.filterMap_cons, hsu]
    rw [hfm] at hnd
    have hnotin : uid ∉ fs.filterMap startUidOf := (List.nodup_cons.mp hnd).1
    have hnd' : (fs.filterMap startUidOf).Nodup := (List.nodup_cons.mp hnd).2
    have hgood' : ∀ g ∈ fs, goodFile g = true :=
      fun g hgmem => hgood g (List.mem_cons_of_mem _ hgmem)
    by_cases hm : q.matches d = true
    · have hfresh_f := hfresh f (List.mem_cons_self f fs) uid hsu
      have hins_runs : dictInsert uid f idx.runs = idx.runs ++ [(uid, f)] :=
        dictInsert_of_fresh uid f idx.runs hfresh_f.1
      have hins_starts : dictInsert uid d idx.runStarts = idx.runStarts ++ [(uid, d)] :=
        dictInsert_of_fresh uid d idx.runStarts hfresh_f.2
      have hms : matchesStart q f = true := by simp [matchesStart, hsd, hm]
      have hfresh' : ∀ g ∈ fs, ∀ u, startUidOf g = some u →
          u ∉ keysOf (idx.runs ++ [(uid, f)]) ∧
          u ∉ keysOf (idx.runStarts ++ [(uid, d)]) := by
        intro g hgmem u hgu
        have h0 := hfresh g (List.mem_cons_of_mem _ hgmem) u hgu
        have hne : u ≠ uid := fun he =>
          hnotin (he ▸ List.mem_filterMap.mpr ⟨g, hgmem, hgu⟩)
        have hkeysA : keysOf (idx.runs ++ [(uid, f)]) = keysOf idx.runs ++ [uid] := by
          simp [keysOf]
        have hkeysB : keysOf (idx.runStarts ++ [(uid, d)]) =
            keysOf idx.runStarts ++ [uid] := by
          simp [keysOf]
        constructor
        · intro hmem
          rw [hkeysA, List.mem_append] at hmem
          rcases hmem with h | h
          · exact h0.1 h
          · exact hne (by simpa using h)
        · intro hmem
          rw [hkeysB, List.mem_append] at hmem
          rcases hmem with h | h
          · exact h0.2 h
          · exact hne (by simpa using h)
      have step : updateIndex q (f :: fs) idx =
          updateIndex q fs ⟨idx.runs ++ [(uid, f)], idx.runStarts ++ [(uid, d)]⟩ := by
        simp only [updateIndex, hl, hparts.1, if_true, hm, hg, hins_runs, hins_starts]
      rw [step, ih _ hgood' hnd' hfresh']
      simp [selRuns, selStarts, List.filter_cons, hms, hsu, hsd,
        List.append_assoc]
    · have hm' : q.matches d = false := by
        cases h : q.matches d
        · rfl
        · exact absurd h hm
      have hms : matchesStart q f = false := by simp [matchesStart, hsd, hm']
      have hfresh' : ∀ g ∈ fs, ∀ u, startUidOf g = some u →
          u ∉ keysOf idx.runs ∧ u ∉ keysOf idx.runStarts :=
        fun g hgmem => hfresh g (List.mem_cons_of_mem _ hgmem)
      have step : updateIndex q (f :: fs) idx = updateIndex q fs idx := by
        simp only [updateIndex, hl, hparts.1, if_true, hm', Bool.false_eq_true,
          if_false]
      rw [step, ih idx hgood' hnd' hfresh']
      simp [selRuns, selStarts, List.filter_cons, hms]

/-- Successful construction over good files with pairwise-distinct start
uids produces exactly the ordered selection of matching files. -/
theorem buildCatalog_good (q : Query) (files : List RunFile)
    (hgood : ∀ f ∈ files, goodFile f = true)
    (hnd : (files.filterMap startUidOf).Nodup) :
    buildCatalog files q = .ok ⟨q, ⟨selRuns q files, selStarts q files⟩⟩ := by
  have h := updateIndex_good q files ⟨[], []⟩ hgood hnd
    (by intro f hf u hu; exact ⟨by simp [keysOf], by simp [keysOf]⟩)
  simp [buildCatalog, h, Except.map]

theorem selRuns_values (q : Query) (files : List RunFile) :
    (selRuns q files).map Prod.snd = files.filter (matchesStart q) := by
  simp [selRuns, List.map_map, Function.comp_def]

theorem matchesStart_all_of_good (f : RunFile) (h : goodFile f = true) :
    matchesStart Query.all f = true := by
  cases hl : f.lines.head? with
  | none => simp [goodFile, hl] at h
  | some l => simp [matchesStart, startDocOf, hl, Query.matches]

/-- C4 (counterexample): over two files sharing the start uid `u`, composing
`search` narrows through the deduplicated run list, so the earlier duplicate
file is no longer available; the single direct build with the conjoined
filter still registers it.  The composed catalog lacks uid `u` while the
direct catalog binds it to `fileA`. -/
theorem search_compose_counterexample :
    (Except.bind (buildCatalog [fileA, fileB] Query.all)
        (fun c0 => Except.bind (searchCatalog c0 (Query.eqF "x" "1"))
          (fun c1 => searchCatalog c1 Query.all))).map
        (fun c => dictFind c.index.runs "u") ≠
      (buildCatalog [fileA, fileB]
          (Query.and (Query.eqF "x" "1") Query.all)).map
        (fun c => dictFind c.index.runs "u") := by
  intro h
  have h' : (Except.ok none : Except CatalogError (Option RunFile)) =
      Except.ok (some fileA) := h
  simp at h'

/-- C4 (amended): over a file list in which the start uids are pairwise
distinct (no duplicate-uid overwriting), `search(f1)` then `search(f2)` on
the catalog built with the empty filter yields a catalog whose Run Index is
identical — same uids, bound to the same files and start documents — to that
of a single catalog built over the same file list with the filter
`{$and: [f1, f2]}`; filters compose conjunctively and a child catalog never
contains a run its parent excluded. -/
theorem search_compose_eq_and_filter (files : List RunFile) (f1 f2 : Query)
    (hgood : ∀ f ∈ files, goodFile f = true)
    (hnd : (files.filterMap startUidOf).Nodup) :
    ∃ c0 c1 c2 cd,
      buildCatalog files Query.all = .ok c0 ∧
      searchCatalog c0 f1 = .ok c1 ∧
      searchCatalog c1 f2 = .ok c2 ∧
      buildCatalog files (Query.and f1 f2) = .ok cd ∧
      c2.index = cd.index := by
  have hc0 := buildCatalog_good Query.all files hgood hnd
  have hfilesAll : files.filter (matchesStart Query.all) = files :=
    List.filter_eq_self.mpr (fun f hf => matchesStart_all_of_good f (hgood f hf))
  have hvals0 : (selRuns Query.all files).map Prod.snd = files := by
    rw [selRuns_values, hfilesAll]
  have hsearch1 :
      searchCatalog ⟨Query.all, ⟨selRuns Query.all files, selStarts Query.all files⟩⟩ f1 =
        buildCatalog files f1 := by
    simp [searchCatalog, hvals0]
  have hc1 := buildCatalog_good f1 files hgood hnd
  have hvals1 : (selRuns f1 files).map Prod.snd = files.filter (matchesStart f1) :=
    selRuns_values f1 files
  have hgood1 : ∀ f ∈ files.filter (matchesStart f1), goodFile f = true :=
    fun f hf => hgood f (List.mem_filter.mp hf).1
  have hnd1 : ((files.filter (matchesStart f1)).filterMap startUidOf).Nodup :=
    List.Nodup.sublist (List.Sublist.filterMap startUidOf (List.filter_sublist files)) hnd
  have hcd := buildCatalog_good (Query.and f1 f2) files hgood hnd
  by_cases h1all : f1 = Query.all
  · subst h1all
    have hsearch2 :
        searchCatalog ⟨Query.all, ⟨selRuns Query.all files, selStarts Query.all files⟩⟩ f2 =
          buildCatalog files f2 := by
      simp [searchCatalog, hvals0]
    have hc2 := buildCatalog_good f2 files hgood hnd
    have hfe : files.filter (matchesStart f2) =
        files.filter (matchesStart (Query.and Query.all f2)) := by
      apply List.filter_congr
      intro f _
      cases hsd : startDocOf f with
      | none => simp [matchesStart, hsd]
      | some d => simp [matchesStart, hsd, Query.matches]
    refine ⟨_, _, _, _, hc0, hsearch1.trans hc1, hsearch2.trans hc2, hcd, ?_⟩
    simp only [selRuns, selStarts, hfe]
  · have hsearch2 :
        searchCatalog ⟨f1, ⟨selRuns f1 files, selStarts f1 files⟩⟩ f2 =
          buildCatalog (files.filter (matchesStart f1)) (Query.and f1 f2) := by
      simp [searchCatalog, hvals1, h1all]
    have hc2 := buildCatalog_good (Query.and f1 f2) (files.filter (matchesStart f1))
      hgood1 hnd1
    have hff : (files.filter (matchesStart f1)).filter
          (matchesStart (Query.and f1 f2)) =
        files.filter (matchesStart (Query.and f1 f2)) := by
      rw [List.filter_filter]
      apply List.filter_congr
      intro f _
      cases hsd : startDocOf f with
      | none => simp [matchesStart, hsd]
      | some d =>
        simp only [matchesStart, hsd, Option.any_some, Query.matches]
        cases ha : f1.matches d <;> cases hb : f2.matches d <;> simp
    refine ⟨_, _, _, _, hc0, hsearch1.trans hc1, hsearch2.trans hc2, hcd, ?_⟩
    simp only [selRuns, selStarts, hff]

/-- Witness for C4 (amended) at two distinct-uid files and two concrete
filters. -/
theorem search_compose_eq_and_filter_witness :
    ∃ c0 c1 c2 cd,
      buildCatalog [fileR1, file123] Query.all = .ok c0 ∧
      searchCatalog c0 (Query.eqF "uid" "r1") = .ok c1 ∧
      searchCatalog c1 Query.all = .ok c2 ∧
      buildCatalog [fileR1, file123] (Query.and (Query.eqF "uid" "r1") Query.all) = .ok cd ∧
      c2.index = cd.index :=
  search_compose_eq_and_filter [fileR1, file123] (Query.eqF "uid" "r1") Query.all
    (by decide) (by decide)

end IntakeBluesky
